import Mathlib

/-!
# gocxx/sync: WaitGroup and Pool

A shallow embedding of `include/gocxx/sync/waitgroup.h` and
`include/gocxx/sync/pool.h`.

Every member function of both classes runs with the object's mutex held from
its first to its last statement, so a call is one atomic step on the object's
state.  The mutex itself is therefore not part of the state.
-/

namespace gocxx.sync

/-! ## Machine integers -/

/-- Smallest value of the C++ type `int` (32 bits). -/
def INT_MIN : Int := -2147483648

/-- Largest value of the C++ type `int` (32 bits). -/
def INT_MAX : Int := 2147483647

/-- An integer brought back into the range of `int` (two's complement, 32 bits).
The identity on `INT_MIN .. INT_MAX`; signed overflow itself is undefined in
C++, and the statements below that depend on a sum carry the hypothesis that it
is representable. -/
def wrapInt (x : Int) : Int := (x + 2147483648) % 4294967296 - 2147483648

/-! ## std::condition_variable -/

/-- The state of a `std::condition_variable`: the threads (by id) that are
blocked in `wait` on it. -/
structure CondVar where
  blocked : List Nat
deriving DecidableEq, Repr

/-- The calls a condition variable offers to a notifier (`cond.h` wraps both):
`notify_one` wakes a single waiting thread, `notify_all` wakes all of them. -/
inductive CvCall where
  | notify_one
  | notify_all
deriving DecidableEq, Repr

/-- The call `notify_all()`: unblocks every thread that waits on the condition
variable.  The result is the new state and the threads woken. -/
def CondVar.notify_all (cv : CondVar) : CondVar × List Nat :=
  ({ blocked := [] }, cv.blocked)

/-! ## WaitGroup -/

/-- The data members of `class WaitGroup` (`mtx_` apart): `int count_ = 0` and
`cv_`. -/
structure WaitGroup where
  count_ : Int
  cv_ : CondVar
deriving DecidableEq, Repr

/-- A freshly constructed WaitGroup: `count_ = 0`, nobody waits. -/
def WaitGroup.fresh : WaitGroup := { count_ := 0, cv_ := { blocked := [] } }

/-- What one call of `Add` did: the object afterwards, the exception thrown
(if any), the calls issued on `cv_`, and the threads they woke. -/
structure AddResult where
  wg : WaitGroup
  thrown : Option String
  cvCalls : List CvCall
  woken : List Nat
deriving DecidableEq, Repr

/-- The member `void Add(int delta)`:
    count_ += delta;
    if (count_ < 0) throw std::runtime_error("WaitGroup counter went negative");
    if (count_ == 0) cv_.notify_all(); -/
def WaitGroup.Add (wg : WaitGroup) (delta : Int) : AddResult :=
  let wg1 : WaitGroup := { wg with count_ := wrapInt (wg.count_ + delta) }
  if wg1.count_ < 0 then
    { wg := wg1, thrown := some "WaitGroup counter went negative", cvCalls := [], woken := [] }
  else if wg1.count_ = 0 then
    let r := wg1.cv_.notify_all
    { wg := { wg1 with cv_ := r.1 }, thrown := none, cvCalls := [CvCall.notify_all], woken := r.2 }
  else
    { wg := wg1, thrown := none, cvCalls := [], woken := [] }

/-- The member `void Done() { Add(-1); }`. -/
def WaitGroup.Done (wg : WaitGroup) : AddResult := wg.Add (-1)

/-- The predicate of `Wait`: `[this] { return count_ == 0; }`. -/
def WaitGroup.pred (wg : WaitGroup) : Bool := wg.count_ == 0

/-- One pass of thread `t` through the loop of `cv_.wait(lock, pred)`, that is
`while (!pred()) cv_.wait(lock);`, with the lock held: when the predicate holds
`Wait` returns (`true`), otherwise `t` blocks on `cv_` (`false`).  The same pass
runs on entry to `Wait` and each time the thread resumes. -/
def WaitGroup.waitPass (wg : WaitGroup) (t : Nat) : WaitGroup × Bool :=
  if wg.pred then (wg, true)
  else ({ wg with cv_ := { blocked := t :: wg.cv_.blocked } }, false)

/-- The member `void Wait()` for one thread, as the loop `while (!pred()) cv_.wait(lock);`.
`wg` is the object when the thread takes the lock, and `wakes` lists the states
of the object the thread finds each time it resumes from `cv_.wait` (after a
notification or spuriously).  The result is `some (wg1, n)` when `Wait` returns
in state `wg1` after blocking `n` times, and `none` while the thread is still
blocked after the last of `wakes`. -/
def WaitGroup.Wait (wg : WaitGroup) (wakes : List WaitGroup) : Option (WaitGroup × Nat) :=
  if wg.pred then some (wg, 0)
  else
    match wakes with
    | [] => none
    | w :: ws => (w.Wait ws).map (fun r => (r.1, r.2 + 1))

/-- A call on a WaitGroup by a producer or a worker. -/
inductive WgCall where
  | Add (delta : Int)
  | Done
deriving DecidableEq, Repr

/-- Performs one call. -/
def WaitGroup.call (wg : WaitGroup) : WgCall → AddResult
  | WgCall.Add delta => wg.Add delta
  | WgCall.Done => wg.Done

/-- Performs the calls in order, each on the object as the previous call left
it (a caller that catches the exception of a failed call goes on with the
object as the failed call left it); the result of every call. -/
def WaitGroup.runCalls (wg : WaitGroup) : List WgCall → List AddResult
  | [] => []
  | c :: cs => wg.call c :: (wg.call c).wg.runCalls cs

/-- The object after the calls of `runCalls`. -/
def WaitGroup.afterCalls (wg : WaitGroup) : List WgCall → WaitGroup
  | [] => wg
  | c :: cs => (wg.call c).wg.afterCalls cs

/-- The calls of `m` rounds of one task each: `Add(1)` by the producer, then
`Done()` by the worker, `m` times over. -/
def rounds : Nat → List WgCall
  | 0 => []
  | m + 1 => WgCall.Add 1 :: WgCall.Done :: rounds m

/-! ## Pool -/

/-- A `std::shared_ptr<T>` as the pool sees it: the null pointer, or a pointer
to the object at an address.  Two pointers are the same instance when their
addresses agree.  The pool never reads or writes the object pointed to. -/
inductive SharedPtr where
  | null
  | ref (addr : Nat)
deriving DecidableEq, Repr

/-- The data members of `template <typename T> class Pool` (`mtx_` apart):
`std::stack<std::shared_ptr<T>> pool_`, the top of the stack being the head of
the list, and `std::function<std::shared_ptr<T>()> newFunc_`.  The function is
caller-supplied code: it acts on the caller's world `σ` (whatever its closure
captures, and the heap), and either returns a pointer or throws an `ε`. -/
structure Pool (σ ε : Type) where
  pool_ : List SharedPtr
  newFunc_ : σ → Except ε SharedPtr × σ

/-- The constructor `explicit Pool(std::function<std::shared_ptr<T>()> newFunc)`: the stack
starts empty. -/
def Pool.new {σ ε : Type} (newFunc : σ → Except ε SharedPtr × σ) : Pool σ ε :=
  { pool_ := [], newFunc_ := newFunc }

/-- What one call of `Get` did: the value returned or the exception that left
the call, the pool and the caller's world afterwards, and how many times
`newFunc_` was invoked. -/
structure GetResult (σ ε : Type) where
  ret : Except ε SharedPtr
  pool : Pool σ ε
  env : σ
  newCalls : Nat

/-- The member `std::shared_ptr<T> Get()`:
    if (pool_.empty()) return newFunc_();
    auto obj = pool_.top(); pool_.pop(); return obj; -/
def Pool.Get {σ ε : Type} (p : Pool σ ε) (env : σ) : GetResult σ ε :=
  match p.pool_ with
  | [] =>
    let r := p.newFunc_ env
    { ret := r.1, pool := p, env := r.2, newCalls := 1 }
  | obj :: rest =>
    { ret := Except.ok obj, pool := { p with pool_ := rest }, env := env, newCalls := 0 }

/-- The member `void Put(std::shared_ptr<T> obj)`: `pool_.push(std::move(obj));` -/
def Pool.Put {σ ε : Type} (p : Pool σ ε) (obj : SharedPtr) : Pool σ ε :=
  { p with pool_ := obj :: p.pool_ }

/-- A call on a pool. -/
inductive PoolCall where
  | Get
  | Put (obj : SharedPtr)
deriving DecidableEq, Repr

/-- A pool in use: the pool, the caller's world, what the `Get` calls so far
returned (oldest first), and the number of invocations of `newFunc_` so far. -/
structure PoolState (σ ε : Type) where
  pool : Pool σ ε
  env : σ
  rets : List (Except ε SharedPtr)
  newCalls : Nat

/-- A pool just constructed, in the world `env`. -/
def PoolState.init {σ ε : Type} (newFunc : σ → Except ε SharedPtr × σ) (env : σ) :
    PoolState σ ε :=
  { pool := Pool.new newFunc, env := env, rets := [], newCalls := 0 }

/-- Performs one call. -/
def PoolState.step {σ ε : Type} (s : PoolState σ ε) : PoolCall → PoolState σ ε
  | PoolCall.Get =>
    let r := s.pool.Get s.env
    { pool := r.pool, env := r.env, rets := s.rets ++ [r.ret], newCalls := s.newCalls + r.newCalls }
  | PoolCall.Put obj => { s with pool := s.pool.Put obj }

/-- Performs the calls in order. -/
def PoolState.run {σ ε : Type} (s : PoolState σ ε) : List PoolCall → PoolState σ ε
  | [] => s
  | c :: cs => (s.step c).run cs

/-- A factory that tags each instance it creates with the next id 1, 2, 3, ...:
its world is the number of instances created so far, and the instance with id
`k` is `SharedPtr.ref k`. -/
def idFactory (ε : Type) : Nat → Except ε SharedPtr × Nat :=
  fun created => (Except.ok (SharedPtr.ref (created + 1)), created + 1)

/-- A factory that returns `f 0`, `f 1`, `f 2`, ... on its successive calls; its
world is the number of calls so far. -/
def seqFactory (ε : Type) (f : Nat → SharedPtr) : Nat → Except ε SharedPtr × Nat :=
  fun calls => (Except.ok (f calls), calls + 1)

/-- The world of the pool tests of `tests/sync_test.cpp`: the counter `created`
and the heap of `struct Dummy { int value = 0; }` objects, the object at
address `a` having `value = heap[a]`. -/
structure TestEnv where
  created : Nat
  heap : List Int
deriving DecidableEq, Repr

/-- The factory of the pool tests:
`[&] { created++; return std::make_shared<Dummy>(); }`. -/
def testFactory : TestEnv → Except String SharedPtr × TestEnv :=
  fun env =>
    (Except.ok (SharedPtr.ref env.heap.length),
     { created := env.created + 1, heap := env.heap ++ [0] })

/-- The assignment `d->value = v` of the tests (only made through a non-null
pointer there). -/
def TestEnv.setValue (env : TestEnv) (d : SharedPtr) (v : Int) : TestEnv :=
  match d with
  | SharedPtr.null => env
  | SharedPtr.ref a => { env with heap := env.heap.set a v }

/-- The read `d->value` of the tests (only made through a non-null pointer
there). -/
def TestEnv.value (env : TestEnv) (d : SharedPtr) : Option Int :=
  match d with
  | SharedPtr.null => none
  | SharedPtr.ref a => env.heap.get? a

/-! ## Pool shared by several callers -/

/-- A pool shared by callers (threads), `Get` and `Put` being atomic steps:
the pool, the factory's world, and the instances every caller currently holds,
as pairs (caller, instance). -/
structure Shared (σ ε : Type) where
  pool : Pool σ ε
  env : σ
  held : List (Nat × SharedPtr)

/-- A step of a caller on the shared pool. -/
inductive Act where
  | Get (caller : Nat)
  | Put (caller : Nat) (obj : SharedPtr)
deriving DecidableEq, Repr

/-- A shared pool just constructed: nobody holds an instance. -/
def Shared.init {σ ε : Type} (newFunc : σ → Except ε SharedPtr × σ) (env : σ) : Shared σ ε :=
  { pool := Pool.new newFunc, env := env, held := [] }

/-- The instances currently held by some caller. -/
def Shared.heldObjs {σ ε : Type} (s : Shared σ ε) : List SharedPtr := s.held.map Prod.snd

/-- One step.  A `Get` hands its result to the caller.  A `Put` is a step of
the protocol only when the caller holds the instance, and the caller gives the
instance up; otherwise there is no step (`none`). -/
def Shared.step {σ ε : Type} (s : Shared σ ε) : Act → Option (Shared σ ε)
  | Act.Get caller =>
    let r := s.pool.Get s.env
    match r.ret with
    | Except.ok obj => some { pool := r.pool, env := r.env, held := (caller, obj) :: s.held }
    | Except.error _ => some { pool := r.pool, env := r.env, held := s.held }
  | Act.Put caller obj =>
    if (caller, obj) ∈ s.held then
      some { pool := s.pool.Put obj, env := s.env, held := s.held.erase (caller, obj) }
    else none

/-- The steps in order; `none` when one of them is not a step of the protocol. -/
def Shared.run {σ ε : Type} (s : Shared σ ε) : List Act → Option (Shared σ ε)
  | [] => some s
  | a :: as => (s.step a).bind (fun s1 => s1.run as)

/-! ## Theorems: WaitGroup -/

theorem wrapInt_of_range (x : Int) (h1 : INT_MIN ≤ x) (h2 : x ≤ INT_MAX) : wrapInt x = x := by
  unfold wrapInt
  unfold INT_MIN at h1
  unfold INT_MAX at h2
  omega

theorem Add_count (wg : WaitGroup) (delta : Int) :
    (wg.Add delta).wg.count_ = wrapInt (wg.count_ + delta) := by
  unfold WaitGroup.Add
  simp only
  split_ifs <;> rfl

theorem Add_thrown (wg : WaitGroup) (delta : Int) :
    (wg.Add delta).thrown =
      if wrapInt (wg.count_ + delta) < 0 then some "WaitGroup counter went negative" else none := by
  unfold WaitGroup.Add
  simp only
  split_ifs <;> rfl

theorem Add_cvCalls (wg : WaitGroup) (delta : Int) :
    (wg.Add delta).cvCalls =
      if wrapInt (wg.count_ + delta) = 0 then [CvCall.notify_all] else [] := by
  unfold WaitGroup.Add
  simp only
  split_ifs <;> first | rfl | omega

theorem Add_woken (wg : WaitGroup) (delta : Int) :
    ((wg.Add delta).wg.cv_, (wg.Add delta).woken) =
      if wrapInt (wg.count_ + delta) = 0 then wg.cv_.notify_all else (wg.cv_, []) := by
  unfold WaitGroup.Add
  simp only
  split_ifs <;> first | rfl | omega

/-- C1, as the claim states it, fails: on a fresh WaitGroup (counter 0) the call
`Add(-1)` fails with the error, and it leaves the counter at -1, not at its
prior value 0. -/
theorem C1_Add_failure_leaves_negative_counter :
    (WaitGroup.fresh.Add (-1)).thrown = some "WaitGroup counter went negative" ∧
    (WaitGroup.fresh.Add (-1)).wg.count_ = -1 ∧
    (WaitGroup.fresh.Add (-1)).wg.count_ ≠ WaitGroup.fresh.count_ ∧
    (WaitGroup.fresh.Add (-1)).wg.count_ < 0 := by
  decide

/-- C1, amended: after every sequence of `Add(delta)` calls on a fresh WaitGroup
that leaves the counter at a valid (non-negative) value, a call `Add(d)` that
drives the total negative fails with the error, and the counter is left at that
negative total, prior value plus `d`; it is not restored. -/
theorem C1_Add_failure_keeps_sum (deltas : List Int) (d : Int)
    (hd : INT_MIN ≤ d)
    (hprior : 0 ≤ (WaitGroup.fresh.afterCalls (deltas.map WgCall.Add)).count_)
    (hneg : (WaitGroup.fresh.afterCalls (deltas.map WgCall.Add)).count_ + d < 0) :
    ((WaitGroup.fresh.afterCalls (deltas.map WgCall.Add)).Add d).thrown
        = some "WaitGroup counter went negative" ∧
    ((WaitGroup.fresh.afterCalls (deltas.map WgCall.Add)).Add d).wg.count_
        = (WaitGroup.fresh.afterCalls (deltas.map WgCall.Add)).count_ + d ∧
    ((WaitGroup.fresh.afterCalls (deltas.map WgCall.Add)).Add d).wg.count_ < 0 := by
  have hw : wrapInt ((WaitGroup.fresh.afterCalls (deltas.map WgCall.Add)).count_ + d)
      = (WaitGroup.fresh.afterCalls (deltas.map WgCall.Add)).count_ + d := by
    apply wrapInt_of_range
    · omega
    · unfold INT_MAX; omega
  rw [Add_thrown, Add_count, hw]
  simp [hneg]

theorem C1_Add_failure_keeps_sum_witness :
    ((WaitGroup.fresh.afterCalls ([3, -1].map WgCall.Add)).Add (-5)).thrown
        = some "WaitGroup counter went negative" ∧
    ((WaitGroup.fresh.afterCalls ([3, -1].map WgCall.Add)).Add (-5)).wg.count_
        = (WaitGroup.fresh.afterCalls ([3, -1].map WgCall.Add)).count_ + (-5) ∧
    ((WaitGroup.fresh.afterCalls ([3, -1].map WgCall.Add)).Add (-5)).wg.count_ < 0 :=
  C1_Add_failure_keeps_sum [3, -1] (-5) (by decide) (by decide) (by decide)

/-- C2: for a counter value `c` and a `delta` with `c + delta` representable as
`int`, `Add(delta)` fails with the error if and only if `c + delta < 0`, and
when it does not fail the counter afterwards is `c + delta`. -/
theorem C2_Add_fails_iff_negative (wg : WaitGroup) (delta : Int)
    (hlo : INT_MIN ≤ wg.count_ + delta) (hhi : wg.count_ + delta ≤ INT_MAX) :
    ((wg.Add delta).thrown = some "WaitGroup counter went negative" ↔ wg.count_ + delta < 0) ∧
    ((wg.Add delta).thrown = none ↔ 0 ≤ wg.count_ + delta) ∧
    ((wg.Add delta).thrown = none → (wg.Add delta).wg.count_ = wg.count_ + delta) := by
  rw [Add_thrown, Add_count, wrapInt_of_range _ hlo hhi]
  by_cases h : wg.count_ + delta < 0
  · simp [h]
  · simp [h]; omega

theorem C2_Add_fails_iff_negative_witness :
    (((WaitGroup.mk 2 (CondVar.mk [7])).Add (-3)).thrown
        = some "WaitGroup counter went negative" ↔ (2 : Int) + (-3) < 0) ∧
    (((WaitGroup.mk 2 (CondVar.mk [7])).Add (-3)).thrown = none ↔ 0 ≤ (2 : Int) + (-3)) ∧
    (((WaitGroup.mk 2 (CondVar.mk [7])).Add (-3)).thrown = none →
      ((WaitGroup.mk 2 (CondVar.mk [7])).Add (-3)).wg.count_ = (2 : Int) + (-3)) :=
  C2_Add_fails_iff_negative (WaitGroup.mk 2 (CondVar.mk [7])) (-3) (by decide) (by decide)

/-- Balanced `Add(1)` / `Done()` calls from any non-negative counter value, the
counter staying representable as `int` after each call. -/
theorem balanced_calls_from (ops : List WgCall) :
    ∀ wg : WaitGroup, 0 ≤ wg.count_ →
    (∀ c ∈ ops, c = WgCall.Add 1 ∨ c = WgCall.Done) →
    (∀ k : Nat, ((ops.take k).count WgCall.Done : Int)
        ≤ wg.count_ + ((ops.take k).count (WgCall.Add 1) : Int)) →
    (∀ k : Nat, wg.count_ + ((ops.take k).count (WgCall.Add 1) : Int)
        - ((ops.take k).count WgCall.Done : Int) ≤ INT_MAX) →
    (∀ r ∈ wg.runCalls ops, r.thrown = none) ∧
    (wg.afterCalls ops).count_
      = wg.count_ + (ops.count (WgCall.Add 1) : Int) - (ops.count WgCall.Done : Int) := by
  induction ops with
  | nil =>
    intro wg _ _ _ _
    simp [WaitGroup.runCalls, WaitGroup.afterCalls]
  | cons c cs ih =>
    intro wg h0 hops hbal hrep
    have hc := hops c (List.mem_cons_self c cs)
    have hcs : ∀ x ∈ cs, x = WgCall.Add 1 ∨ x = WgCall.Done :=
      fun x hx => hops x (List.mem_cons_of_mem c hx)
    have hne : WgCall.Add 1 ≠ WgCall.Done := by decide
    unfold INT_MAX at hrep
    rcases hc with hc | hc
    · subst hc
      simp only [List.count_cons_self, List.count_cons_of_ne hne,
        List.count_cons_of_ne hne.symm, Nat.cast_add, Nat.cast_one]
      have hle : wg.count_ + 1 ≤ 2147483647 := by
        have := hrep 1
        simp only [List.take_succ_cons, List.take_zero, List.count_cons_self,
          List.count_cons_of_ne hne, List.count_cons_of_ne hne.symm, List.count_nil,
          Nat.cast_add, Nat.cast_one, Nat.cast_zero] at this
        omega
      have hw : wrapInt (wg.count_ + 1) = wg.count_ + 1 := by
        apply wrapInt_of_range
        · unfold INT_MIN; omega
        · unfold INT_MAX; omega
      have hcount : (wg.call (WgCall.Add 1)).wg.count_ = wg.count_ + 1 := by
        simp only [WaitGroup.call]; rw [Add_count, hw]
      have hthrown : (wg.call (WgCall.Add 1)).thrown = none := by
        simp only [WaitGroup.call]; rw [Add_thrown, hw]
        simp; omega
      have hbal2 : ∀ k : Nat, ((cs.take k).count WgCall.Done : Int)
          ≤ (wg.call (WgCall.Add 1)).wg.count_ + ((cs.take k).count (WgCall.Add 1) : Int) := by
        intro k
        have := hbal (k + 1)
        simp only [List.take_succ_cons, List.count_cons_self, List.count_cons_of_ne hne,
          List.count_cons_of_ne hne.symm, Nat.cast_add, Nat.cast_one] at this
        rw [hcount]; omega
      have hrep2 : ∀ k : Nat,
          (wg.call (WgCall.Add 1)).wg.count_ + ((cs.take k).count (WgCall.Add 1) : Int)
            - ((cs.take k).count WgCall.Done : Int) ≤ INT_MAX := by
        intro k
        have := hrep (k + 1)
        simp only [List.take_succ_cons, List.count_cons_self, List.count_cons_of_ne hne,
          List.count_cons_of_ne hne.symm, Nat.cast_add, Nat.cast_one] at this
        rw [hcount]; unfold INT_MAX; omega
      have := ih (wg.call (WgCall.Add 1)).wg (by rw [hcount]; omega) hcs hbal2 hrep2
      refine ⟨?_, ?_⟩
      · intro r hr
        simp only [WaitGroup.runCalls, List.mem_cons] at hr
        rcases hr with hr | hr
        · rw [hr]; exact hthrown
        · exact this.1 r hr
      · simp only [WaitGroup.afterCalls]
        rw [this.2, hcount]; omega
    · subst hc
      simp only [List.count_cons_self, List.count_cons_of_ne hne,
        List.count_cons_of_ne hne.symm, Nat.cast_add, Nat.cast_one]
      have h1 : 1 ≤ wg.count_ := by
        have := hbal 1
        simp only [List.take_succ_cons, List.take_zero, List.count_cons_self,
          List.count_cons_of_ne hne, List.count_cons_of_ne hne.symm, List.count_nil,
          Nat.cast_add, Nat.cast_one, Nat.cast_zero] at this
        omega
      have hle : wg.count_ ≤ 2147483647 := by
        have := hrep 0
        simp only [List.take_zero, List.count_nil, Nat.cast_zero] at this
        omega
      have hw : wrapInt (wg.count_ + -1) = wg.count_ - 1 := by
        rw [wrapInt_of_range]
        · omega
        · unfold INT_MIN; omega
        · unfold INT_MAX; omega
      have hcount : (wg.call WgCall.Done).wg.count_ = wg.count_ - 1 := by
        simp only [WaitGroup.call, WaitGroup.Done]; rw [Add_count, hw]
      have hthrown : (wg.call WgCall.Done).thrown = none := by
        simp only [WaitGroup.call, WaitGroup.Done]; rw [Add_thrown, hw]
        simp; omega
      have hbal2 : ∀ k : Nat, ((cs.take k).count WgCall.Done : Int)
          ≤ (wg.call WgCall.Done).wg.count_ + ((cs.take k).count (WgCall.Add 1) : Int) := by
        intro k
        have := hbal (k + 1)
        simp only [List.take_succ_cons, List.count_cons_self, List.count_cons_of_ne hne,
          List.count_cons_of_ne hne.symm, Nat.cast_add, Nat.cast_one] at this
        rw [hcount]; omega
      have hrep2 : ∀ k : Nat,
          (wg.call WgCall.Done).wg.count_ + ((cs.take k).count (WgCall.Add 1) : Int)
            - ((cs.take k).count WgCall.Done : Int) ≤ INT_MAX := by
        intro k
        have := hrep (k + 1)
        simp only [List.take_succ_cons, List.count_cons_self, List.count_cons_of_ne hne,
          List.count_cons_of_ne hne.symm, Nat.cast_add, Nat.cast_one] at this
        rw [hcount]; unfold INT_MAX; omega
      have := ih (wg.call WgCall.Done).wg (by rw [hcount]; omega) hcs hbal2 hrep2
      refine ⟨?_, ?_⟩
      · intro r hr
        simp only [WaitGroup.runCalls, List.mem_cons] at hr
        rcases hr with hr | hr
        · rw [hr]; exact hthrown
        · exact this.1 r hr
      · simp only [WaitGroup.afterCalls]
        rw [this.2, hcount]; omega

/-- There is one result per call. -/
theorem runCalls_length (ops : List WgCall) :
    ∀ wg : WaitGroup, (wg.runCalls ops).length = ops.length := by
  induction ops with
  | nil => intro wg; rfl
  | cons c cs ih => intro wg; simp only [WaitGroup.runCalls, List.length_cons, ih]

/-- The result of the call at position `k` carries the object as it is after
the first `k + 1` calls. -/
theorem runCalls_getElem (ops : List WgCall) :
    ∀ (wg : WaitGroup) (k : Nat) (r : AddResult),
      (wg.runCalls ops)[k]? = some r →
      r ∈ wg.runCalls ops ∧ r.wg = wg.afterCalls (ops.take (k + 1)) := by
  induction ops with
  | nil => intro wg k r h; simp [WaitGroup.runCalls] at h
  | cons c cs ih =>
    intro wg k r h
    cases k with
    | zero =>
      simp only [WaitGroup.runCalls, List.getElem?_cons_zero, Option.some.injEq] at h
      subst h
      simp [WaitGroup.runCalls, WaitGroup.afterCalls]
    | succ k =>
      simp only [WaitGroup.runCalls, List.getElem?_cons_succ] at h
      have := ih _ k r h
      refine ⟨?_, ?_⟩
      · simp only [WaitGroup.runCalls, List.mem_cons]
        exact Or.inr this.1
      · rw [this.2]
        simp [WaitGroup.afterCalls]

/-- C7: on a fresh WaitGroup, for every sequence of `Add(1)` and `Done()` calls
in which every prefix has at least as many `Add(1)` as `Done()` calls, the
counter value after each call (the number of `Add(1)` minus the number of
`Done()` calls so far) being representable as `int`: no call fails, the counter
after each call is that number, `Done()` is `Add(-1)`, and when the two numbers
are equal at the end the counter is 0 and the predicate of `Wait` holds. -/
theorem C7_balanced_rounds (ops : List WgCall)
    (hops : ∀ c ∈ ops, c = WgCall.Add 1 ∨ c = WgCall.Done)
    (hbal : ∀ k : Nat, (ops.take k).count WgCall.Done ≤ (ops.take k).count (WgCall.Add 1))
    (hrep : ∀ k : Nat, ((ops.take k).count (WgCall.Add 1) : Int)
        - ((ops.take k).count WgCall.Done : Int) ≤ INT_MAX) :
    (∀ (k : Nat) (r : AddResult), (WaitGroup.fresh.runCalls ops)[k]? = some r →
      r.thrown = none ∧
      r.wg.count_ = ((ops.take (k + 1)).count (WgCall.Add 1) : Int)
                      - ((ops.take (k + 1)).count WgCall.Done : Int)) ∧
    (WaitGroup.fresh.runCalls ops).length = ops.length ∧
    (∀ wg : WaitGroup, wg.Done = wg.Add (-1)) ∧
    (ops.count (WgCall.Add 1) = ops.count WgCall.Done →
      (WaitGroup.fresh.afterCalls ops).count_ = 0 ∧
      (WaitGroup.fresh.afterCalls ops).pred = true) := by
  have hfresh : WaitGroup.fresh.count_ = 0 := rfl
  have hall := balanced_calls_from ops WaitGroup.fresh (by rw [hfresh])
    hops (by intro k; rw [hfresh]; have := hbal k; omega)
    (by intro k; rw [hfresh]; have := hrep k; omega)
  refine ⟨?_, runCalls_length ops WaitGroup.fresh, fun _ => rfl, ?_⟩
  · intro k r hr
    have hk := runCalls_getElem ops WaitGroup.fresh k r hr
    refine ⟨hall.1 r hk.1, ?_⟩
    have hpre := balanced_calls_from (ops.take (k + 1)) WaitGroup.fresh (by rw [hfresh])
      (fun c hc => hops c (List.mem_of_mem_take hc))
      (by
        intro j
        rw [hfresh, List.take_take]
        have := hbal (min j (k + 1))
        omega)
      (by
        intro j
        rw [hfresh, List.take_take]
        have := hrep (min j (k + 1))
        omega)
    rw [hk.2, hpre.2, hfresh]
    omega
  · intro heq
    have h0 : (WaitGroup.fresh.afterCalls ops).count_ = 0 := by
      rw [hall.2, hfresh, heq]; omega
    exact ⟨h0, by simp [WaitGroup.pred, h0]⟩

theorem C7_balanced_rounds_witness :
    (∀ (k : Nat) (r : AddResult),
      (WaitGroup.fresh.runCalls
        [WgCall.Add 1, WgCall.Add 1, WgCall.Add 1, WgCall.Add 1, WgCall.Add 1,
          WgCall.Done, WgCall.Done, WgCall.Done, WgCall.Done, WgCall.Done])[k]?
          = some r →
      r.thrown = none ∧
      r.wg.count_ =
        (((([WgCall.Add 1, WgCall.Add 1, WgCall.Add 1, WgCall.Add 1, WgCall.Add 1,
          WgCall.Done, WgCall.Done, WgCall.Done, WgCall.Done, WgCall.Done] : List WgCall).take (k + 1)).count (WgCall.Add 1) : Nat) : Int)
        - (((([WgCall.Add 1, WgCall.Add 1, WgCall.Add 1, WgCall.Add 1, WgCall.Add 1,
          WgCall.Done, WgCall.Done, WgCall.Done, WgCall.Done, WgCall.Done] : List WgCall).take (k + 1)).count WgCall.Done : Nat) : Int)) ∧
    (WaitGroup.fresh.runCalls
        [WgCall.Add 1, WgCall.Add 1, WgCall.Add 1, WgCall.Add 1, WgCall.Add 1,
          WgCall.Done, WgCall.Done, WgCall.Done, WgCall.Done, WgCall.Done]).length = 10 ∧
    (∀ wg : WaitGroup, wg.Done = wg.Add (-1)) ∧
    (WaitGroup.fresh.afterCalls
        [WgCall.Add 1, WgCall.Add 1, WgCall.Add 1, WgCall.Add 1, WgCall.Add 1,
          WgCall.Done, WgCall.Done, WgCall.Done, WgCall.Done, WgCall.Done]).count_ = 0 ∧
    (WaitGroup.fresh.afterCalls
        [WgCall.Add 1, WgCall.Add 1, WgCall.Add 1, WgCall.Add 1, WgCall.Add 1,
          WgCall.Done, WgCall.Done, WgCall.Done, WgCall.Done, WgCall.Done]).pred = true :=
  have h := C7_balanced_rounds
    [WgCall.Add 1, WgCall.Add 1, WgCall.Add 1, WgCall.Add 1, WgCall.Add 1,
          WgCall.Done, WgCall.Done, WgCall.Done, WgCall.Done, WgCall.Done]
    (by decide)
    (by
      intro k
      have h : ∀ j, j < 11 →
          (([WgCall.Add 1, WgCall.Add 1, WgCall.Add 1, WgCall.Add 1, WgCall.Add 1,
          WgCall.Done, WgCall.Done, WgCall.Done, WgCall.Done, WgCall.Done] : List WgCall).take j).count WgCall.Done
          ≤ (([WgCall.Add 1, WgCall.Add 1, WgCall.Add 1, WgCall.Add 1, WgCall.Add 1,
          WgCall.Done, WgCall.Done, WgCall.Done, WgCall.Done, WgCall.Done] : List WgCall).take j).count (WgCall.Add 1) := by decide
      by_cases hk : k < 11
      · exact h k hk
      · rw [List.take_of_length_le (by simp only [List.length_cons, List.length_nil]; omega)]
        decide)
    (by
      intro k
      have hle : (([WgCall.Add 1, WgCall.Add 1, WgCall.Add 1, WgCall.Add 1, WgCall.Add 1,
          WgCall.Done, WgCall.Done, WgCall.Done, WgCall.Done, WgCall.Done] : List WgCall).take k).count (WgCall.Add 1)
          ≤ ([WgCall.Add 1, WgCall.Add 1, WgCall.Add 1, WgCall.Add 1, WgCall.Add 1,
          WgCall.Done, WgCall.Done, WgCall.Done, WgCall.Done, WgCall.Done] : List WgCall).count (WgCall.Add 1) :=
        List.Sublist.count_le (List.take_sublist _ _) _
      have h5 : ([WgCall.Add 1, WgCall.Add 1, WgCall.Add 1, WgCall.Add 1, WgCall.Add 1,
          WgCall.Done, WgCall.Done, WgCall.Done, WgCall.Done, WgCall.Done] : List WgCall).count (WgCall.Add 1) = 5 := by decide
      unfold INT_MAX
      omega)
  ⟨h.1, h.2.1, h.2.2.1, (h.2.2.2 (by decide)).1, (h.2.2.2 (by decide)).2⟩

/-- In every prefix of `rounds m` the `Add(1)` calls outnumber the `Done()`
calls by zero or one. -/
theorem rounds_lead (m : Nat) :
    ∀ k : Nat,
      ((rounds m).take k).count WgCall.Done ≤ ((rounds m).take k).count (WgCall.Add 1) ∧
      ((rounds m).take k).count (WgCall.Add 1) ≤ ((rounds m).take k).count WgCall.Done + 1 := by
  have hne : WgCall.Add 1 ≠ WgCall.Done := by decide
  induction m with
  | zero => intro k; simp [rounds]
  | succ m ih =>
    intro k
    cases k with
    | zero => simp [rounds]
    | succ k =>
      cases k with
      | zero =>
        simp [rounds, List.count_cons_of_ne hne, List.count_cons_of_ne hne.symm]
      | succ k =>
        have := ih k
        simp only [rounds, List.take_succ_cons, List.count_cons_self,
          List.count_cons_of_ne hne, List.count_cons_of_ne hne.symm]
        omega

/-- Any number of rounds, 2^31 and more included, runs without a failed call
and ends with the counter at 0: the counter never exceeds 1. -/
theorem rounds_never_fail (m : Nat) :
    (∀ r ∈ WaitGroup.fresh.runCalls (rounds m), r.thrown = none) ∧
    (WaitGroup.fresh.afterCalls (rounds m)).count_ = 0 := by
  have hfresh : WaitGroup.fresh.count_ = 0 := rfl
  have hops : ∀ c ∈ rounds m, c = WgCall.Add 1 ∨ c = WgCall.Done := by
    induction m with
    | zero => intro c hc; simp [rounds] at hc
    | succ m ih =>
      intro c hc
      simp only [rounds, List.mem_cons] at hc
      rcases hc with hc | hc | hc
      · exact Or.inl hc
      · exact Or.inr hc
      · exact ih c hc
  have hall := balanced_calls_from (rounds m) WaitGroup.fresh (by rw [hfresh]) hops
    (by intro k; rw [hfresh]; have := (rounds_lead m k).1; omega)
    (by intro k; rw [hfresh]; unfold INT_MAX; have := (rounds_lead m k).2; omega)
  refine ⟨hall.1, ?_⟩
  have hcnt : (rounds m).count (WgCall.Add 1) = (rounds m).count WgCall.Done := by
    have hne : WgCall.Add 1 ≠ WgCall.Done := by decide
    induction m with
    | zero => rfl
    | succ m ih =>
      simp only [rounds, List.count_cons_self, List.count_cons_of_ne hne,
        List.count_cons_of_ne hne.symm]
      have hops2 : ∀ c ∈ rounds m, c = WgCall.Add 1 ∨ c = WgCall.Done :=
        fun c hc => hops c (by simp only [rounds, List.mem_cons]; exact Or.inr (Or.inr hc))
      have := ih hops2
        (balanced_calls_from (rounds m) WaitGroup.fresh (by rw [hfresh]) hops2
          (by intro k; rw [hfresh]; have := (rounds_lead m k).1; omega)
          (by intro k; rw [hfresh]; unfold INT_MAX; have := (rounds_lead m k).2; omega))
      omega
  rw [hall.2, hfresh, hcnt]
  omega

theorem pred_iff (wg : WaitGroup) : wg.pred = true ↔ wg.count_ = 0 := by
  simp [WaitGroup.pred]

theorem Wait_of_pred (wg : WaitGroup) (wakes : List WaitGroup) (h : wg.pred = true) :
    wg.Wait wakes = some (wg, 0) := by
  cases wakes <;> simp [WaitGroup.Wait, h]

theorem Wait_of_not_pred (wg w : WaitGroup) (ws : List WaitGroup) (h : wg.pred = false) :
    wg.Wait (w :: ws) = (w.Wait ws).map (fun r => (r.1, r.2 + 1)) := by
  simp [WaitGroup.Wait, h]

/-- C8: whenever `Add(delta)` leaves the counter at exactly zero it does not
fail, its one call on `cv_` is `notify_all`, which wakes every thread blocked on
`cv_` and leaves none blocked, and the predicate `count_ == 0` holds in the
resulting state, so that each woken waiter, re-checking it there, returns from
`Wait`; an `Add` that fails or leaves the counter non-zero makes no call on
`cv_` and wakes nobody; `Done()` is `Add(-1)`. -/
theorem C8_wake_all (wg : WaitGroup) (delta : Int) :
    ((wg.Add delta).wg.count_ = 0 →
      (wg.Add delta).thrown = none ∧
      (wg.Add delta).cvCalls = [CvCall.notify_all] ∧
      ((wg.Add delta).wg.cv_, (wg.Add delta).woken) = wg.cv_.notify_all ∧
      (wg.Add delta).woken = wg.cv_.blocked ∧
      (wg.Add delta).wg.cv_.blocked = [] ∧
      (wg.Add delta).wg.pred = true ∧
      (∀ t ∈ wg.cv_.blocked, (wg.Add delta).wg.waitPass t = ((wg.Add delta).wg, true)) ∧
      (∀ (wg0 : WaitGroup) (ws : List WaitGroup), wg0.pred = false →
        wg0.Wait ((wg.Add delta).wg :: ws) = some ((wg.Add delta).wg, 1))) ∧
    (((wg.Add delta).thrown ≠ none ∨ (wg.Add delta).wg.count_ ≠ 0) →
      (wg.Add delta).cvCalls = [] ∧
      (wg.Add delta).woken = [] ∧
      (wg.Add delta).wg.cv_ = wg.cv_) ∧
    wg.Done = wg.Add (-1) := by
  have hc := Add_count wg delta
  have ht := Add_thrown wg delta
  have hv := Add_cvCalls wg delta
  have hw := Add_woken wg delta
  refine ⟨?_, ?_, rfl⟩
  · intro h0
    have hz : wrapInt (wg.count_ + delta) = 0 := by rw [← hc]; exact h0
    rw [hz] at ht hv hw
    simp only [lt_self_iff_false, if_false, if_true] at ht hv hw
    have hp : (wg.Add delta).wg.pred = true := (pred_iff _).2 h0
    have hw2 := Prod.mk.inj hw
    simp only [CondVar.notify_all] at hw2
    refine ⟨ht, hv, hw, hw2.2, ?_, hp, ?_, ?_⟩
    · rw [hw2.1]
    · intro t _
      simp [WaitGroup.waitPass, hp]
    · intro wg0 ws hwg0
      rw [Wait_of_not_pred _ _ _ hwg0, Wait_of_pred _ _ hp]
      rfl
  · intro h
    have hz : wrapInt (wg.count_ + delta) ≠ 0 := by
      rcases h with h | h
      · intro hz
        rw [ht, hz] at h
        simp at h
      · rw [← hc]; exact h
    rw [if_neg hz] at hv hw
    have hw2 := Prod.mk.inj hw
    exact ⟨hv, hw2.2, hw2.1⟩

theorem C8_wake_all_witness :
    ((WaitGroup.mk 1 (CondVar.mk [4, 9])).Add (-1)).wg.count_ = 0 ∧
    (((WaitGroup.mk 1 (CondVar.mk [4, 9])).Add (-1)).thrown = none ∧
      ((WaitGroup.mk 1 (CondVar.mk [4, 9])).Add (-1)).cvCalls = [CvCall.notify_all] ∧
      (((WaitGroup.mk 1 (CondVar.mk [4, 9])).Add (-1)).wg.cv_,
        ((WaitGroup.mk 1 (CondVar.mk [4, 9])).Add (-1)).woken)
          = (CondVar.mk [4, 9]).notify_all ∧
      ((WaitGroup.mk 1 (CondVar.mk [4, 9])).Add (-1)).woken = [4, 9] ∧
      ((WaitGroup.mk 1 (CondVar.mk [4, 9])).Add (-1)).wg.cv_.blocked = [] ∧
      ((WaitGroup.mk 1 (CondVar.mk [4, 9])).Add (-1)).wg.pred = true ∧
      (∀ t ∈ [4, 9], ((WaitGroup.mk 1 (CondVar.mk [4, 9])).Add (-1)).wg.waitPass t
          = (((WaitGroup.mk 1 (CondVar.mk [4, 9])).Add (-1)).wg, true)) ∧
      (∀ (wg0 : WaitGroup) (ws : List WaitGroup), wg0.pred = false →
        wg0.Wait (((WaitGroup.mk 1 (CondVar.mk [4, 9])).Add (-1)).wg :: ws)
          = some (((WaitGroup.mk 1 (CondVar.mk [4, 9])).Add (-1)).wg, 1))) ∧
    ((WaitGroup.mk 1 (CondVar.mk [4, 9])).Add (-3)).thrown ≠ none ∧
    (((WaitGroup.mk 1 (CondVar.mk [4, 9])).Add (-3)).cvCalls = [] ∧
      ((WaitGroup.mk 1 (CondVar.mk [4, 9])).Add (-3)).woken = [] ∧
      ((WaitGroup.mk 1 (CondVar.mk [4, 9])).Add (-3)).wg.cv_ = CondVar.mk [4, 9]) :=
  ⟨by decide,
   (C8_wake_all (WaitGroup.mk 1 (CondVar.mk [4, 9])) (-1)).1 (by decide),
   by decide,
   (C8_wake_all (WaitGroup.mk 1 (CondVar.mk [4, 9])) (-3)).2.1 (Or.inl (by decide))⟩

/-- The state in which `Wait` returns, and the number of times it blocked. -/
theorem Wait_returns (wakes : List WaitGroup) :
    ∀ (wg r : WaitGroup) (n : Nat), wg.Wait wakes = some (r, n) →
      r.count_ = 0 ∧ (wg :: wakes)[n]? = some r ∧
      ∀ (m : Nat) (w : WaitGroup), m < n → (wg :: wakes)[m]? = some w → w.count_ ≠ 0 := by
  induction wakes with
  | nil =>
    intro wg r n h
    by_cases hp : wg.pred = true
    · rw [Wait_of_pred _ _ hp] at h
      simp only [Option.some.injEq, Prod.mk.injEq] at h
      obtain ⟨h1, h2⟩ := h
      subst h1 h2
      exact ⟨(pred_iff _).1 hp, rfl, fun m w hm _ => absurd hm (Nat.not_lt_zero m)⟩
    · simp [WaitGroup.Wait, hp] at h
  | cons w ws ih =>
    intro wg r n h
    by_cases hp : wg.pred = true
    · rw [Wait_of_pred _ _ hp] at h
      simp only [Option.some.injEq, Prod.mk.injEq] at h
      obtain ⟨h1, h2⟩ := h
      subst h1 h2
      exact ⟨(pred_iff _).1 hp, rfl, fun m w hm _ => absurd hm (Nat.not_lt_zero m)⟩
    · have hp2 : wg.pred = false := by simpa using hp
      rw [Wait_of_not_pred _ _ _ hp2] at h
      simp only [Option.map_eq_some', Prod.mk.injEq, Prod.exists] at h
      obtain ⟨r1, n1, hr, h1, h2⟩ := h
      subst h1 h2
      have := ih w r1 n1 hr
      refine ⟨this.1, by simpa using this.2.1, ?_⟩
      intro m x hm hx
      cases m with
      | zero =>
        simp only [List.getElem?_cons_zero, Option.some.injEq] at hx
        subst hx
        intro hzero
        exact hp ((pred_iff _).2 hzero)
      | succ m =>
        simp only [List.getElem?_cons_succ] at hx
        exact this.2.2 m x (by omega) hx

/-- Wait returns as soon as one of the states it sees has counter zero. -/
theorem Wait_isSome (wakes : List WaitGroup) :
    ∀ wg : WaitGroup, (∃ w ∈ wg :: wakes, w.count_ = 0) → (wg.Wait wakes).isSome = true := by
  induction wakes with
  | nil =>
    intro wg h
    obtain ⟨w, hw, h0⟩ := h
    simp only [List.mem_singleton] at hw
    subst hw
    rw [Wait_of_pred _ _ ((pred_iff _).2 h0)]
    rfl
  | cons v vs ih =>
    intro wg h
    by_cases hp : wg.pred = true
    · rw [Wait_of_pred _ _ hp]; rfl
    · have hp2 : wg.pred = false := by simpa using hp
      rw [Wait_of_not_pred _ _ _ hp2]
      obtain ⟨w, hw, h0⟩ := h
      rcases List.mem_cons.1 hw with hw | hw
      · subst hw
        exact absurd ((pred_iff _).2 h0) hp
      · simp only [Option.isSome_map']
        exact ih v ⟨w, hw, h0⟩

/-- C9: `Wait` called when the counter is zero, a freshly constructed WaitGroup
included, returns at once, without blocking, and leaves the object unchanged;
when `Wait` returns, it returns in a state whose counter is exactly zero, the
first such state among those the thread saw on entry and on each resume; it does
return once the thread sees such a state; and each pass of the loop lets `Wait`
return exactly when the counter is zero, never changing the counter. -/
theorem C9_wait_quiescence (wg : WaitGroup) (wakes : List WaitGroup) :
    (wg.count_ = 0 → wg.Wait wakes = some (wg, 0)) ∧
    WaitGroup.fresh.Wait wakes = some (WaitGroup.fresh, 0) ∧
    (∀ (r : WaitGroup) (n : Nat), wg.Wait wakes = some (r, n) →
      r.count_ = 0 ∧ (wg :: wakes)[n]? = some r ∧
      ∀ (m : Nat) (w : WaitGroup), m < n → (wg :: wakes)[m]? = some w → w.count_ ≠ 0) ∧
    ((∃ w ∈ wg :: wakes, w.count_ = 0) → (wg.Wait wakes).isSome = true) ∧
    (∀ t : Nat, ((wg.waitPass t).2 = true ↔ wg.count_ = 0) ∧
      (wg.waitPass t).1.count_ = wg.count_) := by
  refine ⟨fun h => Wait_of_pred _ _ ((pred_iff _).2 h), Wait_of_pred _ _ rfl,
    fun r n h => Wait_returns wakes wg r n h, Wait_isSome wakes wg, ?_⟩
  intro t
  by_cases hp : wg.pred = true
  · simp [WaitGroup.waitPass, hp, (pred_iff wg).1 hp]
  · have hne : ¬ wg.count_ = 0 := fun h => hp ((pred_iff _).2 h)
    simp [WaitGroup.waitPass, hp, hne]

theorem C9_wait_quiescence_witness :
    ((WaitGroup.mk 2 (CondVar.mk [])).Wait
        [WaitGroup.mk 1 (CondVar.mk []), WaitGroup.mk 0 (CondVar.mk [])]).isSome = true ∧
    (WaitGroup.mk 2 (CondVar.mk [])).Wait
        [WaitGroup.mk 1 (CondVar.mk []), WaitGroup.mk 0 (CondVar.mk [])]
      = some (WaitGroup.mk 0 (CondVar.mk []), 2) :=
  ⟨(C9_wait_quiescence (WaitGroup.mk 2 (CondVar.mk []))
      [WaitGroup.mk 1 (CondVar.mk []), WaitGroup.mk 0 (CondVar.mk [])]).2.2.2.1
      ⟨WaitGroup.mk 0 (CondVar.mk []), by decide, rfl⟩,
   by decide⟩

/-! ## Theorems: Pool -/

theorem Get_cons {σ ε : Type} (p : Pool σ ε) (env : σ) (obj : SharedPtr) (rest : List SharedPtr)
    (h : p.pool_ = obj :: rest) :
    p.Get env = { ret := Except.ok obj, pool := { p with pool_ := rest }, env := env,
                  newCalls := 0 } := by
  unfold Pool.Get
  rw [h]

theorem Get_nil {σ ε : Type} (p : Pool σ ε) (env : σ) (h : p.pool_ = []) :
    p.Get env = { ret := (p.newFunc_ env).1, pool := p, env := (p.newFunc_ env).2,
                  newCalls := 1 } := by
  unfold Pool.Get
  rw [h]

/-- C3: on every pool state, when the free-list is non-empty `Get` returns its
top, which is the element the latest `Put` pushed, removes exactly that element
(the rest keeps content and order) and does not invoke the factory; when the
free-list is empty `Get` invokes the factory exactly once, returns what the
factory returns or throws, and leaves the free-list empty.  So the factory is
invoked only when the free-list is empty. -/
theorem C3_Get_reuses_or_creates {σ ε : Type} (p : Pool σ ε) (env : σ) :
    (∀ (obj : SharedPtr) (rest : List SharedPtr), p.pool_ = obj :: rest →
      (p.Get env).ret = Except.ok obj ∧
      (p.Get env).pool.pool_ = rest ∧
      (p.Get env).pool.newFunc_ = p.newFunc_ ∧
      (p.Get env).newCalls = 0 ∧
      (p.Get env).env = env) ∧
    (p.pool_ = [] →
      (p.Get env).newCalls = 1 ∧
      (p.Get env).ret = (p.newFunc_ env).1 ∧
      (p.Get env).env = (p.newFunc_ env).2 ∧
      (p.Get env).pool.pool_ = [] ∧
      (p.Get env).pool.newFunc_ = p.newFunc_) ∧
    ((p.Get env).newCalls ≠ 0 → p.pool_ = []) ∧
    (∀ obj : SharedPtr,
      ((p.Put obj).Get env).ret = Except.ok obj ∧
      ((p.Put obj).Get env).pool.pool_ = p.pool_ ∧
      ((p.Put obj).Get env).newCalls = 0) := by
  refine ⟨?_, ?_, ?_, ?_⟩
  · intro obj rest h
    rw [Get_cons p env obj rest h]
    exact ⟨rfl, rfl, rfl, rfl, rfl⟩
  · intro h
    rw [Get_nil p env h]
    exact ⟨rfl, rfl, rfl, h, rfl⟩
  · intro h
    cases hp : p.pool_ with
    | nil => rfl
    | cons obj rest =>
      rw [Get_cons p env obj rest hp] at h
      exact absurd rfl h
  · intro obj
    exact ⟨rfl, rfl, rfl⟩

theorem C3_Get_reuses_or_creates_witness :
    ((((Pool.new testFactory).Put (SharedPtr.ref 0)).Put (SharedPtr.ref 1)).Get
        (TestEnv.mk 2 [5, 6])).ret = Except.ok (SharedPtr.ref 1) ∧
    ((((Pool.new testFactory).Put (SharedPtr.ref 0)).Put (SharedPtr.ref 1)).Get
        (TestEnv.mk 2 [5, 6])).pool.pool_ = [SharedPtr.ref 0] ∧
    ((((Pool.new testFactory).Put (SharedPtr.ref 0)).Put (SharedPtr.ref 1)).Get
        (TestEnv.mk 2 [5, 6])).newCalls = 0 ∧
    ((Pool.new testFactory).Get (TestEnv.mk 2 [5, 6])).newCalls = 1 ∧
    ((Pool.new testFactory).Get (TestEnv.mk 2 [5, 6])).ret = Except.ok (SharedPtr.ref 2) ∧
    ((Pool.new testFactory).Get (TestEnv.mk 2 [5, 6])).env = TestEnv.mk 3 [5, 6, 0] ∧
    ((Pool.new testFactory).Get (TestEnv.mk 2 [5, 6])).pool.pool_ = [] :=
  have h1 := (C3_Get_reuses_or_creates
    (((Pool.new testFactory).Put (SharedPtr.ref 0)).Put (SharedPtr.ref 1))
    (TestEnv.mk 2 [5, 6])).1 (SharedPtr.ref 1) [SharedPtr.ref 0] rfl
  have h2 := (C3_Get_reuses_or_creates (Pool.new testFactory) (TestEnv.mk 2 [5, 6])).2.1 rfl
  ⟨h1.1, h1.2.1, h1.2.2.2.1, h2.1, h2.2.1, h2.2.2.1, h2.2.2.2.1⟩

/-- C4: for every pool state and every instance `x`, from this pool or not,
`Put(x)` followed by `Get` returns `x`, does not invoke the factory, leaves the
caller's world (the contents of every object with it) as it was, and restores
the pool to what it was before the `Put`; and on a fresh pool, when the first
`Get` returns `x`, then after any mutation by the caller and `Put(x)` the second
`Get` returns `x` again in the mutated world, the factory having been invoked
exactly once over the sequence. -/
theorem C4_put_get_roundtrip {σ ε : Type} (p : Pool σ ε) (env : σ) (x : SharedPtr) :
    (((p.Put x).Get env).ret = Except.ok x ∧
      ((p.Put x).Get env).newCalls = 0 ∧
      ((p.Put x).Get env).env = env ∧
      ((p.Put x).Get env).pool = p) ∧
    (∀ (newFunc : σ → Except ε SharedPtr × σ) (mutate : σ → σ),
      ((Pool.new newFunc).Get env).ret = Except.ok x →
      ((((Pool.new newFunc).Get env).pool.Put x).Get
          (mutate ((Pool.new newFunc).Get env).env)).ret = Except.ok x ∧
      ((((Pool.new newFunc).Get env).pool.Put x).Get
          (mutate ((Pool.new newFunc).Get env).env)).env
        = mutate ((Pool.new newFunc).Get env).env ∧
      ((Pool.new newFunc).Get env).newCalls +
        ((((Pool.new newFunc).Get env).pool.Put x).Get
          (mutate ((Pool.new newFunc).Get env).env)).newCalls = 1 ∧
      ((((Pool.new newFunc).Get env).pool.Put x).Get
          (mutate ((Pool.new newFunc).Get env).env)).pool.pool_ = []) := by
  refine ⟨⟨rfl, rfl, rfl, rfl⟩, ?_⟩
  intro newFunc mutate _
  exact ⟨rfl, rfl, rfl, rfl⟩

theorem C4_put_get_roundtrip_witness :
    ((Pool.new testFactory).Get (TestEnv.mk 0 [])).ret = Except.ok (SharedPtr.ref 0) ∧
    ((((Pool.new testFactory).Get (TestEnv.mk 0 [])).pool.Put (SharedPtr.ref 0)).Get
        ((fun w => TestEnv.setValue w (SharedPtr.ref 0) 42)
          ((Pool.new testFactory).Get (TestEnv.mk 0 [])).env)).ret
      = Except.ok (SharedPtr.ref 0) ∧
    TestEnv.value
      ((((Pool.new testFactory).Get (TestEnv.mk 0 [])).pool.Put (SharedPtr.ref 0)).Get
        ((fun w => TestEnv.setValue w (SharedPtr.ref 0) 42)
          ((Pool.new testFactory).Get (TestEnv.mk 0 [])).env)).env
      (SharedPtr.ref 0) = some 42 ∧
    ((((Pool.new testFactory).Get (TestEnv.mk 0 [])).pool.Put (SharedPtr.ref 0)).Get
        ((fun w => TestEnv.setValue w (SharedPtr.ref 0) 42)
          ((Pool.new testFactory).Get (TestEnv.mk 0 [])).env)).env.created = 1 :=
  have h := (C4_put_get_roundtrip (Pool.new testFactory) (TestEnv.mk 0 []) (SharedPtr.ref 0)).2
    testFactory (fun w => TestEnv.setValue w (SharedPtr.ref 0) 42) rfl
  ⟨rfl, h.1, by rw [h.2.1]; decide, by rw [h.2.1]; decide⟩

theorem run_append {σ ε : Type} (a b : List PoolCall) :
    ∀ s : PoolState σ ε, s.run (a ++ b) = (s.run a).run b := by
  induction a with
  | nil => intro s; rfl
  | cons c cs ih => intro s; simp only [List.cons_append, PoolState.run]; exact ih _

/-- Putting instances back pushes them, the last one ending on top. -/
theorem run_puts {σ ε : Type} (objs : List SharedPtr) :
    ∀ s : PoolState σ ε, s.run (objs.map PoolCall.Put)
      = { s with pool := { s.pool with pool_ := objs.reverse ++ s.pool.pool_ } } := by
  induction objs with
  | nil => intro s; rfl
  | cons x xs ih =>
    intro s
    simp only [List.map_cons, PoolState.run, PoolState.step, ih, Pool.Put,
      List.reverse_cons, List.append_assoc, List.singleton_append]

/-- As many `Get` calls as the free-list has entries hand the entries out from
the top, without a call of the factory. -/
theorem run_gets_reuse {σ ε : Type} (xs : List SharedPtr) :
    ∀ s : PoolState σ ε, s.pool.pool_ = xs →
      s.run (List.replicate xs.length PoolCall.Get)
        = { pool := { s.pool with pool_ := [] }, env := s.env,
            rets := s.rets ++ xs.map Except.ok, newCalls := s.newCalls } := by
  induction xs with
  | nil =>
    intro s h
    simp only [List.length_nil, List.replicate_zero, PoolState.run, List.map_nil,
      List.append_nil]
    rw [← h]
  | cons x xs ih =>
    intro s h
    simp only [List.length_cons, List.replicate_succ, PoolState.run, PoolState.step]
    rw [Get_cons s.pool s.env x xs h]
    rw [ih _ rfl]
    simp

/-- On an empty free-list, `n` calls of `Get` create the next `n` ids. -/
theorem run_gets_create (ε : Type) (n : Nat) :
    ∀ s : PoolState Nat ε, s.pool.pool_ = [] → s.pool.newFunc_ = idFactory ε →
      s.run (List.replicate n PoolCall.Get)
        = { pool := s.pool, env := s.env + n,
            rets := s.rets ++ (List.range' (s.env + 1) n).map
              (fun k => Except.ok (SharedPtr.ref k)),
            newCalls := s.newCalls + n } := by
  induction n with
  | zero => intro s _ _; simp [PoolState.run]
  | succ n ih =>
    intro s h hf
    simp only [List.replicate_succ, PoolState.run, PoolState.step]
    rw [Get_nil s.pool s.env h]
    have hstep := ih
      { pool := s.pool, env := (s.pool.newFunc_ s.env).2,
        rets := s.rets ++ [(s.pool.newFunc_ s.env).1], newCalls := s.newCalls + 1 } h hf
    simp only [] at hstep ⊢
    rw [hstep]
    simp only [hf, idFactory, List.range'_succ, List.map_cons, List.append_assoc,
      List.singleton_append]
    congr 1 <;> omega

/-- C5: for every `n`, on a fresh pool whose factory tags the instances it
creates with the ids 1, 2, 3, ...: `n` consecutive `Get` calls return the ids
1..n in this order; when the `n` instances are then `Put` back in any order,
`n` further `Get` calls return them again, in the reverse of the order of the
`Put` calls, so exactly the ids 1..n, each once; no id is created and the number
of factory invocations stays `n`. -/
theorem C5_reacquire_same_ids (ε : Type) (n : Nat) (order : List SharedPtr)
    (horder : order.Perm ((List.range' 1 n).map SharedPtr.ref)) :
    ((PoolState.init (idFactory ε) 0).run (List.replicate n PoolCall.Get)).rets
      = (List.range' 1 n).map (fun k => Except.ok (SharedPtr.ref k)) ∧
    ((PoolState.init (idFactory ε) 0).run (List.replicate n PoolCall.Get)).newCalls = n ∧
    ((PoolState.init (idFactory ε) 0).run (List.replicate n PoolCall.Get)).env = n ∧
    ((PoolState.init (idFactory ε) 0).run
        (List.replicate n PoolCall.Get ++ order.map PoolCall.Put
          ++ List.replicate n PoolCall.Get)).rets
      = (List.range' 1 n).map (fun k => Except.ok (SharedPtr.ref k))
          ++ order.reverse.map Except.ok ∧
    order.reverse.Perm ((List.range' 1 n).map SharedPtr.ref) ∧
    order.reverse.Nodup ∧
    ((PoolState.init (idFactory ε) 0).run
        (List.replicate n PoolCall.Get ++ order.map PoolCall.Put
          ++ List.replicate n PoolCall.Get)).newCalls = n ∧
    ((PoolState.init (idFactory ε) 0).run
        (List.replicate n PoolCall.Get ++ order.map PoolCall.Put
          ++ List.replicate n PoolCall.Get)).env = n ∧
    ((PoolState.init (idFactory ε) 0).run
        (List.replicate n PoolCall.Get ++ order.map PoolCall.Put
          ++ List.replicate n PoolCall.Get)).pool.pool_ = [] := by
  have h1 := run_gets_create ε n (PoolState.init (idFactory ε) 0) rfl rfl
  have hlen : order.reverse.length = n := by
    rw [List.length_reverse, horder.length_eq]; simp
  have hperm : order.reverse.Perm ((List.range' 1 n).map SharedPtr.ref) :=
    (List.reverse_perm order).trans horder
  have hnd : ((List.range' 1 n).map SharedPtr.ref).Nodup := by
    apply List.Nodup.map
    · intro a b h; exact SharedPtr.ref.inj h
    · exact List.nodup_range' 1 n
  have h2 : ((PoolState.init (idFactory ε) 0).run
      (List.replicate n PoolCall.Get ++ order.map PoolCall.Put
        ++ List.replicate n PoolCall.Get))
      = { pool := Pool.new (idFactory ε), env := n,
          rets := (List.range' 1 n).map (fun k => Except.ok (SharedPtr.ref k))
                    ++ order.reverse.map Except.ok,
          newCalls := n } := by
    rw [run_append, run_append, h1, run_puts]
    have := run_gets_reuse order.reverse
      ({ pool := { pool_ := order.reverse, newFunc_ := idFactory ε }, env := n,
         rets := (List.range' 1 n).map (fun k => Except.ok (SharedPtr.ref k)),
         newCalls := n } : PoolState Nat ε) rfl
    rw [hlen] at this
    simpa [PoolState.init, Pool.new] using this
  rw [h2, h1]
  simp only [PoolState.init, List.nil_append, Nat.zero_add, Pool.new]
  exact ⟨trivial, trivial, trivial, trivial, hperm, hperm.nodup_iff.2 hnd, trivial, trivial,
    trivial⟩

theorem C5_reacquire_same_ids_witness :
    ((PoolState.init (idFactory String) 0).run
        (List.replicate 3 PoolCall.Get
          ++ [SharedPtr.ref 2, SharedPtr.ref 3, SharedPtr.ref 1].map PoolCall.Put
          ++ List.replicate 3 PoolCall.Get)).rets
      = [Except.ok (SharedPtr.ref 1), Except.ok (SharedPtr.ref 2), Except.ok (SharedPtr.ref 3),
         Except.ok (SharedPtr.ref 1), Except.ok (SharedPtr.ref 3), Except.ok (SharedPtr.ref 2)] ∧
    ((PoolState.init (idFactory String) 0).run
        (List.replicate 3 PoolCall.Get
          ++ [SharedPtr.ref 2, SharedPtr.ref 3, SharedPtr.ref 1].map PoolCall.Put
          ++ List.replicate 3 PoolCall.Get)).newCalls = 3 :=
  have h := C5_reacquire_same_ids String 3 [SharedPtr.ref 2, SharedPtr.ref 3, SharedPtr.ref 1]
    (by decide)
  ⟨h.2.2.2.1, h.2.2.2.2.2.2.1⟩

/-- One step of the shared pool keeps: the factory, the absence of duplicates
among the free-list and the instances held, and that each of them came from one
of the factory calls made so far. -/
theorem shared_step_inv (ε : Type) (f : Nat → SharedPtr) (hf : Function.Injective f)
    (s s1 : Shared Nat ε) (a : Act)
    (hfun : s.pool.newFunc_ = seqFactory ε f)
    (hnd : (s.pool.pool_ ++ s.heldObjs).Nodup)
    (hsrc : ∀ x ∈ s.pool.pool_ ++ s.heldObjs, ∃ k, k < s.env ∧ f k = x)
    (hstep : s.step a = some s1) :
    s1.pool.newFunc_ = seqFactory ε f ∧
    (s1.pool.pool_ ++ s1.heldObjs).Nodup ∧
    (∀ x ∈ s1.pool.pool_ ++ s1.heldObjs, ∃ k, k < s1.env ∧ f k = x) := by
  cases a with
  | Get caller =>
    cases hp : s.pool.pool_ with
    | nil =>
      simp only [Shared.step, Get_nil s.pool s.env hp, hfun, seqFactory,
        Option.some.injEq] at hstep
      subst hstep
      simp only [Shared.heldObjs, hp, List.nil_append, List.map_cons] at hnd hsrc ⊢
      refine ⟨hfun, ?_, ?_⟩
      · refine List.nodup_cons.2 ⟨?_, hnd⟩
        intro hmem
        obtain ⟨k, hk, hfk⟩ := hsrc _ hmem
        have := hf hfk
        omega
      · intro x hx
        rcases List.mem_cons.1 hx with hx | hx
        · exact ⟨s.env, Nat.lt_succ_self _, hx.symm⟩
        · obtain ⟨k, hk, hfk⟩ := hsrc x hx
          exact ⟨k, Nat.lt_succ_of_lt hk, hfk⟩
    | cons obj rest =>
      simp only [Shared.step, Get_cons s.pool s.env obj rest hp, Option.some.injEq] at hstep
      subst hstep
      simp only [Shared.heldObjs, hp, List.map_cons] at hnd hsrc ⊢
      have hperm : (rest ++ obj :: List.map Prod.snd s.held).Perm
          (obj :: rest ++ List.map Prod.snd s.held) := by
        exact List.perm_middle
      refine ⟨hfun, hperm.nodup_iff.2 hnd, ?_⟩
      intro x hx
      exact hsrc x (hperm.mem_iff.1 hx)
  | Put caller obj =>
    by_cases hmem : (caller, obj) ∈ s.held
    · simp only [Shared.step, hmem, if_true, Option.some.injEq] at hstep
      subst hstep
      simp only [Shared.heldObjs, Pool.Put] at hnd hsrc ⊢
      have hperm1 : (List.map Prod.snd s.held).Perm
          (obj :: List.map Prod.snd (s.held.erase (caller, obj))) := by
        obtain ⟨l1, l2, _, h1, h2⟩ := List.exists_erase_eq hmem
        rw [h2]
        nth_rewrite 1 [h1]
        simp only [List.map_append, List.map_cons]
        exact List.perm_middle
      have hperm : (obj :: s.pool.pool_ ++ List.map Prod.snd (s.held.erase (caller, obj))).Perm
          (s.pool.pool_ ++ List.map Prod.snd s.held) := by
        have h2 : (s.pool.pool_ ++ List.map Prod.snd s.held).Perm
            (s.pool.pool_ ++ obj :: List.map Prod.snd (s.held.erase (caller, obj))) :=
          List.Perm.append_left _ hperm1
        exact (h2.trans List.perm_middle).symm
      refine ⟨hfun, hperm.nodup_iff.2 hnd, ?_⟩
      intro x hx
      exact hsrc x (hperm.mem_iff.1 hx)
    · simp [Shared.step, hmem] at hstep

/-- The facts of `shared_step_inv` hold in every state the steps reach. -/
theorem shared_run_inv (ε : Type) (f : Nat → SharedPtr) (hf : Function.Injective f)
    (acts : List Act) :
    ∀ s s1 : Shared Nat ε,
      s.pool.newFunc_ = seqFactory ε f →
      (s.pool.pool_ ++ s.heldObjs).Nodup →
      (∀ x ∈ s.pool.pool_ ++ s.heldObjs, ∃ k, k < s.env ∧ f k = x) →
      s.run acts = some s1 →
      s1.pool.newFunc_ = seqFactory ε f ∧
      (s1.pool.pool_ ++ s1.heldObjs).Nodup ∧
      (∀ x ∈ s1.pool.pool_ ++ s1.heldObjs, ∃ k, k < s1.env ∧ f k = x) := by
  induction acts with
  | nil =>
    intro s s1 h1 h2 h3 hrun
    simp only [Shared.run, Option.some.injEq] at hrun
    subst hrun
    exact ⟨h1, h2, h3⟩
  | cons a as ih =>
    intro s s1 h1 h2 h3 hrun
    simp only [Shared.run] at hrun
    cases hs : s.step a with
    | none => rw [hs] at hrun; simp at hrun
    | some s2 =>
      rw [hs] at hrun
      simp only [Option.some_bind] at hrun
      have h := shared_step_inv ε f hf s s2 a h1 h2 h3 hs
      exact ih s2 s1 h.1 h.2.1 h.2.2 hrun

/-- What `Get` returns in a state that satisfies the facts of `shared_step_inv`
is held by nobody. -/
theorem shared_get_not_held (ε : Type) (f : Nat → SharedPtr) (hf : Function.Injective f)
    (s : Shared Nat ε) (obj : SharedPtr)
    (hfun : s.pool.newFunc_ = seqFactory ε f)
    (hnd : (s.pool.pool_ ++ s.heldObjs).Nodup)
    (hsrc : ∀ x ∈ s.pool.pool_ ++ s.heldObjs, ∃ k, k < s.env ∧ f k = x)
    (hget : (s.pool.Get s.env).ret = Except.ok obj) :
    obj ∉ s.heldObjs := by
  cases hp : s.pool.pool_ with
  | nil =>
    rw [Get_nil s.pool s.env hp, hfun] at hget
    simp only [seqFactory, Except.ok.injEq] at hget
    intro hmem
    obtain ⟨k, hk, hfk⟩ := hsrc obj (List.mem_append_right _ hmem)
    rw [← hget] at hfk
    have := hf hfk
    omega
  | cons top rest =>
    rw [Get_cons s.pool s.env top rest hp] at hget
    simp only [Except.ok.injEq] at hget
    subst hget
    rw [hp] at hnd
    intro hmem
    exact (List.nodup_append.1 hnd).2.2 (List.mem_cons_self _ _) hmem

/-- C6: `Get` and `Put` being atomic steps, when the factory returns a distinct
new instance on every call and a caller only Puts an instance it holds, giving
it up, then in every reachable state the free-list has no duplicate entries, no
instance is held twice, and no entry of the free-list is held by a caller; so
what a `Get` returns is held by no caller at that time, and two `Get` calls in a
row never return the same instance. -/
theorem C6_never_double_hands_out (ε : Type) (f : Nat → SharedPtr)
    (hf : Function.Injective f) (acts : List Act) (s : Shared Nat ε)
    (hrun : (Shared.init (seqFactory ε f) 0).run acts = some s) :
    s.pool.pool_.Nodup ∧
    s.heldObjs.Nodup ∧
    (∀ x ∈ s.pool.pool_, x ∉ s.heldObjs) ∧
    (∀ obj : SharedPtr, (s.pool.Get s.env).ret = Except.ok obj → obj ∉ s.heldObjs) ∧
    (∀ (c1 : Nat) (s1 : Shared Nat ε) (obj1 obj2 : SharedPtr),
      s.step (Act.Get c1) = some s1 →
      (s.pool.Get s.env).ret = Except.ok obj1 →
      (s1.pool.Get s1.env).ret = Except.ok obj2 →
      obj1 ≠ obj2) := by
  have hinv := shared_run_inv ε f hf acts (Shared.init (seqFactory ε f) 0) s rfl
    (by simp [Shared.init, Pool.new, Shared.heldObjs])
    (by simp [Shared.init, Pool.new, Shared.heldObjs]) hrun
  have hnd := List.nodup_append.1 hinv.2.1
  refine ⟨hnd.1, hnd.2.1, fun x hx hx2 => hnd.2.2 hx hx2, ?_, ?_⟩
  · intro obj hget
    exact shared_get_not_held ε f hf s obj hinv.1 hinv.2.1 hinv.2.2 hget
  · intro c1 s1 obj1 obj2 hstep hget1 hget2
    have hinv1 := shared_step_inv ε f hf s s1 (Act.Get c1) hinv.1 hinv.2.1 hinv.2.2 hstep
    have hnot := shared_get_not_held ε f hf s1 obj2 hinv1.1 hinv1.2.1 hinv1.2.2 hget2
    have hheld : obj1 ∈ s1.heldObjs := by
      simp only [Shared.step, hget1, Option.some.injEq] at hstep
      subst hstep
      simp [Shared.heldObjs]
    intro heq
    rw [heq] at hheld
    exact hnot hheld

theorem C6_never_double_hands_out_witness :
    (Shared.init (seqFactory String SharedPtr.ref) 0).run
        [Act.Get 1, Act.Get 2, Act.Put 1 (SharedPtr.ref 0), Act.Get 2,
         Act.Put 2 (SharedPtr.ref 1)]
      = some { pool := { pool_ := [SharedPtr.ref 1],
                         newFunc_ := seqFactory String SharedPtr.ref },
               env := 2, held := [(2, SharedPtr.ref 0)] } ∧
    ([SharedPtr.ref 1] : List SharedPtr).Nodup ∧
    (∀ obj : SharedPtr,
      (Pool.Get { pool_ := [SharedPtr.ref 1], newFunc_ := seqFactory String SharedPtr.ref }
        2).ret = Except.ok obj →
      obj ∉ Shared.heldObjs
        { pool := { pool_ := [SharedPtr.ref 1],
                    newFunc_ := seqFactory String SharedPtr.ref },
          env := 2, held := [(2, SharedPtr.ref 0)] }) :=
  have h := C6_never_double_hands_out String SharedPtr.ref
    (fun _ _ h => SharedPtr.ref.inj h)
    [Act.Get 1, Act.Get 2, Act.Put 1 (SharedPtr.ref 0), Act.Get 2, Act.Put 2 (SharedPtr.ref 1)]
    { pool := { pool_ := [SharedPtr.ref 1], newFunc_ := seqFactory String SharedPtr.ref },
      env := 2, held := [(2, SharedPtr.ref 0)] }
    rfl
  ⟨rfl, h.1, h.2.2.2.1⟩

/-- In every state that `Get` and `Put` calls reach from a fresh pool, the
factory is the one the pool was constructed with, and the entries of the
free-list are instances that were Put. -/
theorem run_pool_inv {σ ε : Type} (newFunc : σ → Except ε SharedPtr × σ)
    (calls : List PoolCall) :
    ∀ s : PoolState σ ε, s.pool.newFunc_ = newFunc →
      (s.run calls).pool.newFunc_ = newFunc ∧
      ∀ x ∈ (s.run calls).pool.pool_, x ∈ s.pool.pool_ ∨ PoolCall.Put x ∈ calls := by
  induction calls with
  | nil => intro s h; exact ⟨h, fun x hx => Or.inl hx⟩
  | cons c cs ih =>
    intro s h
    simp only [PoolState.run]
    cases c with
    | Get =>
      cases hp : s.pool.pool_ with
      | nil =>
        have := ih (s.step PoolCall.Get)
          (by simp only [PoolState.step, Get_nil s.pool s.env hp]; exact h)
        refine ⟨this.1, ?_⟩
        intro x hx
        rcases this.2 x hx with h1 | h1
        · simp only [PoolState.step, Get_nil s.pool s.env hp] at h1
          rw [hp] at h1
          exact Or.inl h1
        · exact Or.inr (List.mem_cons_of_mem _ h1)
      | cons top rest =>
        have := ih (s.step PoolCall.Get)
          (by simp only [PoolState.step, Get_cons s.pool s.env top rest hp]; exact h)
        refine ⟨this.1, ?_⟩
        intro x hx
        rcases this.2 x hx with h1 | h1
        · simp only [PoolState.step, Get_cons s.pool s.env top rest hp] at h1
          exact Or.inl (List.mem_cons_of_mem _ h1)
        · exact Or.inr (List.mem_cons_of_mem _ h1)
    | Put obj =>
      have := ih (s.step (PoolCall.Put obj)) (by simp only [PoolState.step, Pool.Put]; exact h)
      refine ⟨this.1, ?_⟩
      intro x hx
      rcases this.2 x hx with h1 | h1
      · simp only [PoolState.step, Pool.Put, List.mem_cons] at h1
        rcases h1 with h1 | h1
        · subst h1
          exact Or.inr (List.mem_cons_self _ _)
        · exact Or.inl h1
      · exact Or.inr (List.mem_cons_of_mem _ h1)

/-- C10, as the claim states it, fails: after `Put(nullptr)` on a fresh pool, a
state that `Put` reaches, `Get` returns the null pointer, without invoking the
factory. -/
theorem C10_Get_returns_null_that_was_Put :
    (((PoolState.init testFactory (TestEnv.mk 0 [])).run
        [PoolCall.Put SharedPtr.null]).pool.Get (TestEnv.mk 0 [])).ret
      = Except.ok SharedPtr.null ∧
    (((PoolState.init testFactory (TestEnv.mk 0 [])).run
        [PoolCall.Put SharedPtr.null]).pool.Get (TestEnv.mk 0 [])).newCalls = 0 := by
  exact ⟨rfl, rfl⟩

/-- C10, amended: for every pool state reached by `Get` and `Put` calls in which
no null instance was Put, and a factory that never returns a null instance, a
`Get` call either returns a non-null instance or fails with the factory's own
failure, propagated unchanged, the free-list being left unchanged. -/
theorem C10_Get_non_null_or_factory_failure {σ ε : Type}
    (newFunc : σ → Except ε SharedPtr × σ) (env0 : σ) (calls : List PoolCall)
    (hput : ∀ obj : SharedPtr, PoolCall.Put obj ∈ calls → obj ≠ SharedPtr.null)
    (hnew : ∀ w : σ, (newFunc w).1 ≠ Except.ok SharedPtr.null) :
    (∃ addr : Nat,
      ((((PoolState.init newFunc env0).run calls).pool.Get
        ((PoolState.init newFunc env0).run calls).env).ret
          = Except.ok (SharedPtr.ref addr))) ∨
    (∃ e : ε,
      ((((PoolState.init newFunc env0).run calls).pool.Get
        ((PoolState.init newFunc env0).run calls).env).ret = Except.error e) ∧
      (newFunc ((PoolState.init newFunc env0).run calls).env).1 = Except.error e ∧
      ((((PoolState.init newFunc env0).run calls).pool.Get
        ((PoolState.init newFunc env0).run calls).env).pool.pool_
          = ((PoolState.init newFunc env0).run calls).pool.pool_)) := by
  have hinv := run_pool_inv newFunc calls (PoolState.init newFunc env0) rfl
  generalize (PoolState.init newFunc env0).run calls = s at hinv ⊢
  have hnn : ∀ x ∈ s.pool.pool_, x ≠ SharedPtr.null := by
    intro x hx
    rcases hinv.2 x hx with h | h
    · simp [PoolState.init, Pool.new] at h
    · exact hput x h
  cases hp : s.pool.pool_ with
  | nil =>
    rw [Get_nil s.pool s.env hp, hinv.1]
    simp only
    cases hr : (newFunc s.env).1 with
    | error e => exact Or.inr ⟨e, rfl, rfl, hp⟩
    | ok obj =>
      cases obj with
      | null => exact absurd hr (hnew s.env)
      | ref addr => exact Or.inl ⟨addr, rfl⟩
  | cons top rest =>
    rw [Get_cons s.pool s.env top rest hp]
    simp only
    cases top with
    | null => exact absurd rfl (hnn SharedPtr.null (by rw [hp]; exact List.mem_cons_self _ _))
    | ref addr => exact Or.inl ⟨addr, rfl⟩

theorem C10_Get_non_null_or_factory_failure_witness :
    (∃ addr : Nat,
      ((((PoolState.init testFactory (TestEnv.mk 0 [])).run
          [PoolCall.Get, PoolCall.Put (SharedPtr.ref 0), PoolCall.Put (SharedPtr.ref 7)]).pool.Get
        ((PoolState.init testFactory (TestEnv.mk 0 [])).run
          [PoolCall.Get, PoolCall.Put (SharedPtr.ref 0), PoolCall.Put (SharedPtr.ref 7)]).env).ret
          = Except.ok (SharedPtr.ref addr))) ∨
    (∃ e : String,
      ((((PoolState.init testFactory (TestEnv.mk 0 [])).run
          [PoolCall.Get, PoolCall.Put (SharedPtr.ref 0), PoolCall.Put (SharedPtr.ref 7)]).pool.Get
        ((PoolState.init testFactory (TestEnv.mk 0 [])).run
          [PoolCall.Get, PoolCall.Put (SharedPtr.ref 0), PoolCall.Put (SharedPtr.ref 7)]).env).ret
          = Except.error e) ∧
      (testFactory ((PoolState.init testFactory (TestEnv.mk 0 [])).run
          [PoolCall.Get, PoolCall.Put (SharedPtr.ref 0), PoolCall.Put (SharedPtr.ref 7)]).env).1
          = Except.error e ∧
      ((((PoolState.init testFactory (TestEnv.mk 0 [])).run
          [PoolCall.Get, PoolCall.Put (SharedPtr.ref 0), PoolCall.Put (SharedPtr.ref 7)]).pool.Get
        ((PoolState.init testFactory (TestEnv.mk 0 [])).run
          [PoolCall.Get, PoolCall.Put (SharedPtr.ref 0), PoolCall.Put (SharedPtr.ref 7)]).env).pool.pool_
          = ((PoolState.init testFactory (TestEnv.mk 0 [])).run
          [PoolCall.Get, PoolCall.Put (SharedPtr.ref 0),
            PoolCall.Put (SharedPtr.ref 7)]).pool.pool_)) :=
  C10_Get_non_null_or_factory_failure testFactory (TestEnv.mk 0 [])
    [PoolCall.Get, PoolCall.Put (SharedPtr.ref 0), PoolCall.Put (SharedPtr.ref 7)]
    (by
      intro obj h
      simp only [List.mem_cons, PoolCall.Put.injEq, List.mem_singleton, reduceCtorEq,
        false_or, List.mem_nil_iff, or_false] at h
      rcases h with h | h <;> subst h <;> decide)
    (by intro w h; simp [testFactory] at h)

end gocxx.sync
